import Mathlib

/-!
Verification of the import-graph discovery algorithm of
`eleventy-plugin-tailwindcss-4` (`src/lib/resolveImports.js`) and of the
option-merging / registration glue of `src/index.js`.

File texts are modelled as `List Char`.  The JavaScript regular expressions
of `resolveImports.js` are modelled by executable scanners with the same
left-to-right, non-greedy semantics:

* `stripComments` models `raw.replace(/\/\*[\s\S]*?\*\//g, '')` — every
  `/*` that has a later `*/` is removed together with the shortest span up
  to that `*/`; a `/*` with no later `*/` is left in place (the regex does
  not match it).
* `scanImports` models the exec-loop over
  `/@import\s+(?!url\()['"]([^'"]+)['"]/g`: left-to-right scan, on a match
  the capture (the maximal nonempty run of non-quote characters between two
  quote characters) is produced and scanning resumes after the match.
-/

set_option maxRecDepth 100000

namespace Tailwind

/-- Text is a list of characters (the contents of a JS string). -/
abbrev S := List Char

/-- JavaScript `\s` character class (the set matched by `/\s/`). -/
def isWS (c : Char) : Bool :=
  c = ' ' || c = '\t' || c = '\n' || c = '\r' ||
  c.toNat = 0x0b || c.toNat = 0x0c || c.toNat = 0xa0 || c.toNat = 0x1680 ||
  (0x2000 ≤ c.toNat && c.toNat ≤ 0x200a) ||
  c.toNat = 0x2028 || c.toNat = 0x2029 || c.toNat = 0x202f ||
  c.toNat = 0x205f || c.toNat = 0x3000 || c.toNat = 0xfeff

/-- The regex character class `['"]`. -/
def isQuote (c : Char) : Bool := c = '\'' || c = '"'

/-- Position of the first `*/` in a text: `some rest` returns the text just
after that `*/`; `none` when no `*/` occurs anywhere.  This is where the
non-greedy `[\s\S]*?\*\//` stops. -/
def findClose : S → Option S
  | [] => none
  | c :: rest =>
    match rest with
    | [] => none
    | d :: rest2 =>
      if c = '*' ∧ d = '/' then some rest2
      else findClose (d :: rest2)

/-- One-pass comment stripper.  In state `none` we are outside a comment and
emit characters; `/*` switches to state `some buf` where `buf` records the
characters consumed since the `/*` (in reverse).  `*/` closes the comment and
discards the buffer; end of input inside a comment re-emits `/*` and the
buffer, because the non-greedy regex does not match an unterminated
comment. -/
def stripGo : Option S → S → S
  | none, [] => []
  | some buf, [] => '/' :: '*' :: buf.reverse
  | none, c :: rest =>
    match rest with
    | [] => [c]
    | d :: rest2 =>
      if c = '/' ∧ d = '*' then stripGo (some []) rest2
      else c :: stripGo none (d :: rest2)
  | some buf, c :: rest =>
    match rest with
    | [] => '/' :: '*' :: (c :: buf).reverse
    | d :: rest2 =>
      if c = '*' ∧ d = '/' then stripGo none rest2
      else stripGo (some (c :: buf)) (d :: rest2)

/-- Model of `raw.replace(/\/\*[\s\S]*?\*\//g, '')` (resolveImports.js line 27). -/
def stripComments (l : S) : S := stripGo none l

/-- Attempt to match `/@import\s+(?!url\()['"]([^'"]+)['"]/` at the very start
of `l`.  On success returns the captured specifier and the text after the
match (the regex `lastIndex` position). -/
def matchImportAt (l : S) : Option (S × S) :=
  match l with
  | '@' :: 'i' :: 'm' :: 'p' :: 'o' :: 'r' :: 't' :: l1 =>
    match l1.takeWhile isWS, l1.dropWhile isWS with
    | [], _ => none
    | _ :: _, 'u' :: 'r' :: 'l' :: '(' :: _ => none
    | _ :: _, q1 :: l3 =>
      if isQuote q1 then
        match l3.takeWhile (fun c => !(isQuote c)), l3.dropWhile (fun c => !(isQuote c)) with
        | [], _ => none
        | b :: bs, _ :: l5 => some (b :: bs, l5)
        | _ :: _, [] => none
      else none
    | _ :: _, [] => none
  | _ => none

/-- Fuelled left-to-right exec-loop: try to match at the current position;
on a match emit the capture and resume after it, otherwise advance one
character.  Fuel `l.length + 1` always suffices because each step consumes at
least one character. -/
def scanGo : Nat → S → List S
  | 0, _ => []
  | _ + 1, [] => []
  | fuel + 1, c :: rest =>
    match matchImportAt (c :: rest) with
    | some (body, after) => body :: scanGo fuel after
    | none => scanGo fuel rest

/-- All specifiers captured by the import regex over a text, in textual
order (resolveImports.js lines 30–33). -/
def scanImports (l : S) : List S := scanGo (l.length + 1) l

/-! ### Node.js POSIX path semantics

`resolveImports.js` uses `path.dirname`, `path.extname` and `path.resolve`;
`index.js` additionally uses `path.join` and `path.relative`.  The models
below follow the Node.js POSIX implementations. -/

/-- Split a text on `/`, like JavaScript `str.split('/')`. -/
def splitSlash : S → List S
  | [] => [[]]
  | c :: rest =>
    if c = '/' then [] :: splitSlash rest
    else
      match splitSlash rest with
      | [] => [[c]]
      | s :: ss => (c :: s) :: ss

/-- Node `normalizeString`: fold path segments, skipping empty and `.`
segments and resolving `..` against the accumulated stack.  When
`allowAbove` is true (relative paths), excess `..` segments are kept;
otherwise (absolute paths) they are dropped at the root. -/
def normSegs (allowAbove : Bool) : List S → List S → List S
  | acc, [] => acc
  | acc, s :: rest =>
    if s = [] ∨ s = ['.'] then normSegs allowAbove acc rest
    else if s = ['.', '.'] then
      if acc ≠ [] ∧ acc.getLast? ≠ some ['.', '.'] then
        normSegs allowAbove acc.dropLast rest
      else if allowAbove then normSegs allowAbove (acc ++ [['.', '.']]) rest
      else normSegs allowAbove acc rest
    else normSegs allowAbove (acc ++ [s]) rest

/-- Join segments with `/` separators (JavaScript `segs.join('/')`). -/
def joinSegs : List S → S
  | [] => []
  | [s] => s
  | s :: rest => s ++ '/' :: joinSegs rest

/-- Rebuild an absolute path from its normalized segments. -/
def joinAbs (segs : List S) : S := '/' :: joinSegs segs

/-- Normalize a (possibly messy) absolute path expression. -/
def normAbs (p : S) : S := joinAbs (normSegs false [] (splitSlash p))

/-- Absolute form of a path: relative paths are resolved against the process
working directory `cwd` (assumed absolute), as Node's filesystem calls do. -/
def abspath (cwd p : S) : S :=
  if p.head? = some '/' then normAbs p else normAbs (cwd ++ '/' :: p)

/-- Node `path.resolve(dir, spec)` with working directory `cwd`
(resolveImports.js line 43). -/
def pathResolve (cwd dir spec : S) : S :=
  if spec.head? = some '/' then normAbs spec
  else if dir.head? = some '/' then normAbs (dir ++ '/' :: spec)
  else normAbs (cwd ++ '/' :: dir ++ '/' :: spec)

/-- Node POSIX `path.dirname` (resolveImports.js line 24). -/
def dirname (p : S) : S :=
  match p with
  | [] => ['.']
  | c0 :: rest =>
    let hasRoot := c0 = '/'
    let r1 := rest.reverse.dropWhile (fun c => c = '/')
    match r1.dropWhile (fun c => c ≠ '/') with
    | [] => if hasRoot then ['/'] else ['.']
    | _ :: r3 =>
      if hasRoot ∧ r3 = [] then ['/', '/']
      else c0 :: r3.reverse

/-- Node POSIX `path.extname` (resolveImports.js line 38): the suffix of the
final path segment from its last `.`; empty when the final segment has no
`.`, when its only `.` is the leading character (dotfiles), or when it is
exactly `..`. -/
def extname (p : S) : S :=
  let b := ((p.reverse.dropWhile (fun c => c = '/')).takeWhile (fun c => c ≠ '/')).reverse
  if b.all (fun c => c ≠ '.') then []
  else
    let rb := b.reverse
    let suf := rb.takeWhile (fun c => c ≠ '.')
    let pre := (rb.dropWhile (fun c => c ≠ '.')).tail
    if pre = [] then []
    else if b = ['.', '.'] then []
    else '.' :: suf.reverse

/-- Node POSIX `path.normalize` (used by `path.join`). -/
def normalizeP (p : S) : S :=
  match p with
  | [] => ['.']
  | c0 :: _ =>
    let isAbs := c0 = '/'
    let hasTrail := p.getLast? = some '/'
    let core := joinSegs (normSegs (!isAbs) [] (splitSlash p))
    if core = [] then
      if isAbs then ['/'] else if hasTrail then ['.', '/'] else ['.']
    else
      let core2 := if hasTrail then core ++ ['/'] else core
      if isAbs then '/' :: core2 else core2

/-- Node POSIX `path.join(a, b)` (index.js lines 40 and 45). -/
def pathJoin (a b : S) : S :=
  if a = [] ∧ b = [] then ['.']
  else if a = [] then normalizeP b
  else if b = [] then normalizeP a
  else normalizeP (a ++ '/' :: b)

/-- Segments of the fully resolved absolute form of a path. -/
def resolvedSegs (cwd p : S) : List S := normSegs false [] (splitSlash (abspath cwd p))

/-- Drop the common leading segments of two segment lists. -/
def dropCommon : List S → List S → List S × List S
  | a :: as2, b :: bs =>
    if a = b then dropCommon as2 bs else (a :: as2, b :: bs)
  | as2, bs => (as2, bs)

/-- Node POSIX `path.relative(fromP, toP)` with working directory `cwd`
(index.js line 89). -/
def pathRelative (cwd fromP toP : S) : S :=
  let pr := dropCommon (resolvedSegs cwd fromP) (resolvedSegs cwd toP)
  joinSegs (List.replicate pr.1.length ['.', '.'] ++ pr.2)

/-! ### Filesystem model and `resolveImports` -/

/-- A filesystem: a list of (normalized absolute path, file text) pairs. -/
abbrev FS := List (S × S)

/-- Model of `existsSync(p)`: the path, made absolute against `cwd`, names a
file.  Note that `seen` membership below is on raw path strings while
existence goes through the real filesystem, exactly as in the source. -/
def existsV (cwd : S) (fs : FS) (p : S) : Bool :=
  fs.any (fun e => e.1 = abspath cwd p)

/-- Model of `readFileSync(p, 'utf-8')` (only reached after `existsSync`). -/
def readF (cwd : S) (fs : FS) (p : S) : S :=
  ((fs.find? (fun e => e.1 = abspath cwd p)).map Prod.snd).getD []

/-- Observer callbacks of `resolveImports` (`logger.onSkipBare`,
`logger.onSkipNotFound`, `logger.onWatch`), recorded in invocation order
with their argument. -/
inductive Event where
  | skipBare (specifier : S)
  | skipNotFound (resolvedPath : S)
  | watch (resolvedPath : S)
deriving DecidableEq

/-- The body of the `while ((match = importRegex.exec(content)) !== null)`
loop of resolveImports.js (lines 32–58), processing the captured specifiers
in order.  `go` is the recursive call (line 56).  Returns the pushed
imports, the callback events, and the updated shared `seen` set. -/
def processSpecs (go : S → List S → List S × List Event × List S)
    (cwd : S) (fs : FS) (dir : S) : List S → List S → List S × List Event × List S
  | [], seen => ([], [], seen)
  | importPath :: rest, seen =>
    if extname importPath = [] then
      let r := processSpecs go cwd fs dir rest seen
      (r.1, Event.skipBare importPath :: r.2.1, r.2.2)
    else
      let resolved := pathResolve cwd dir importPath
      if existsV cwd fs resolved = false then
        let r := processSpecs go cwd fs dir rest seen
        (r.1, Event.skipNotFound resolved :: r.2.1, r.2.2)
      else if resolved ∈ seen then
        processSpecs go cwd fs dir rest seen
      else
        let r1 := go resolved seen
        let r2 := processSpecs go cwd fs dir rest r1.2.2
        (resolved :: (r1.1 ++ r2.1), Event.watch resolved :: (r1.2.1 ++ r2.2.1), r2.2.2)

/-- Fuelled model of `resolveImports(filePath, logger, seen)`
(resolveImports.js lines 18–61).  Recursion depth is bounded by the number
of files, so the canonical fuel of `resolveImports` below is always enough;
`resolveGo_stable` makes this precise. -/
def resolveGo (cwd : S) (fs : FS) : Nat → S → List S → List S × List Event × List S
  | 0, _, seen => ([], [], seen)
  | fuel + 1, filePath, seen =>
    if existsV cwd fs filePath = false ∨ filePath ∈ seen then ([], [], seen)
    else
      processSpecs (fun p s => resolveGo cwd fs fuel p s) cwd fs (dirname filePath)
        (scanImports (stripComments (readF cwd fs filePath))) (filePath :: seen)

/-- Canonical fuel for a top-level call: one more than the number of files. -/
def importsFuel (fs : FS) : Nat := fs.length + 1

/-- Top-level `resolveImports(filePath, logger)` with a fresh `seen` set:
the returned list of absolute paths together with the callback events. -/
def resolveImports (cwd : S) (fs : FS) (filePath : S) : List S × List Event :=
  let r := resolveGo cwd fs (importsFuel fs) filePath []
  (r.1, r.2.1)

/-! ### Build orchestrator (`src/index.js`)

Only the decision logic is modelled: option defaulting/merging, computation
of the source and output paths, validation, the watch-target registrations
and the early-return guard of the build callback.  The CSS transformation
itself is an external collaborator and is out of scope. -/

/-- The `sourceMap` option: `false`, `true`, or the string `'inline'`. -/
inductive SourceMapSetting where
  | off
  | external
  | inlined
deriving DecidableEq

/-- Caller-supplied options object: each field is present or absent. -/
structure UserOptions where
  input : Option S := none
  output : Option S := none
  minify : Option Bool := none
  watchOutput : Option Bool := none
  debug : Option Bool := none
  domDiff : Option Bool := none
  watchImports : Option Bool := none
  sourceMap : Option SourceMapSetting := none

/-- Fully resolved options after merging with the defaults. -/
structure PluginOptions where
  input : Option S
  output : S
  minify : Bool
  watchOutput : Bool
  debug : Bool
  domDiff : Bool
  watchImports : Bool
  sourceMap : SourceMapSetting

/-- The `defaultOptions` object (index.js lines 18–26); it has no `input`
field, so a caller who omits `input` leaves it `undefined`. -/
def defaultOptions : PluginOptions :=
  { input := none
    output := ("styles.css".toList)
    minify := false
    watchOutput := true
    debug := false
    domDiff := true
    watchImports := true
    sourceMap := SourceMapSetting.off }

/-- Model of `options = { ...defaultOptions, ...options }` (index.js
line 29): a caller-supplied field overrides the default for that key. -/
def mergeOptions (o : UserOptions) : PluginOptions :=
  { input := o.input
    output := o.output.getD defaultOptions.output
    minify := o.minify.getD defaultOptions.minify
    watchOutput := o.watchOutput.getD defaultOptions.watchOutput
    debug := o.debug.getD defaultOptions.debug
    domDiff := o.domDiff.getD defaultOptions.domDiff
    watchImports := o.watchImports.getD defaultOptions.watchImports
    sourceMap := o.sourceMap.getD defaultOptions.sourceMap }

/-- Model of `options.input ? path.join(eleventyConfig.dir.input,
options.input) : null` (index.js lines 39–41); the empty string is falsy. -/
def tailwindSourceFile (dirInput : S) (input : Option S) : Option S :=
  match input with
  | some i => if i = [] then none else some (pathJoin dirInput i)
  | none => none

/-- Observable effects of registering the plugin: every
`addWatchTarget` call in order (with `none` for a `null` argument), whether
the `eleventy.before` build callback is a guarded early return, the path the
build callback writes when it runs, and the dev-server options. -/
structure Registration where
  watchTargets : List (Option S)
  buildOutput : Option S
  serverWatch : List S
  serverDomDiff : Bool
deriving DecidableEq

/-- Model of the plugin registration function `tailwindcss(eleventyConfig,
options)` (index.js lines 15–161).  `dirInput` is `eleventyConfig.dir.input`,
`dirsOutput` is `eleventyConfig.directories.output`, `cwd` is
`process.cwd()`. -/
def registerPlugin (cwd dirInput dirsOutput : S) (fs : FS) (o : UserOptions) :
    Registration :=
  let opts := mergeOptions o
  let tsf := tailwindSourceFile dirInput opts.input
  let generatedCSSfile := pathJoin dirsOutput opts.output
  let inputValid := match tsf with
    | none => false
    | some p => existsV cwd fs p
  let importTargets : List S :=
    match tsf with
    | some p =>
      if inputValid && opts.watchImports then
        (resolveImports cwd fs p).1.map (fun f => pathRelative cwd cwd f)
      else []
    | none => []
  { watchTargets := tsf :: importTargets.map some
    buildOutput := if inputValid = true then some generatedCSSfile else none
    serverWatch := if opts.watchOutput then [generatedCSSfile] else []
    serverDomDiff := opts.domDiff }

/-! ### Auxiliary notions used by the correctness proofs -/

/-- A path segment produced by normalization: non-empty, not `.` or `..`,
and containing no separator. -/
def NiceSeg (s : S) : Prop := '/' ∉ s ∧ s ≠ [] ∧ s ≠ ['.'] ∧ s ≠ ['.', '.']

/-- The path keys of a filesystem. -/
def keysOf (fs : FS) : List S := fs.map Prod.fst

/-- Number of files whose key is not yet in the `seen` set; the quantity
that bounds the remaining recursion depth of `resolveImports`. -/
def unvisitedK (fs : FS) (seen : List S) : Nat :=
  ((keysOf fs).toFinset.filter (fun p => p ∉ seen)).card

/-- The first seen-set is contained in the second. -/
def SeenLE (s s' : List S) : Prop := ∀ x, x ∈ s → x ∈ s'

/-- Invariant of one `processSpecs` run starting from `seen`: the seen set
only grows, every pushed path is new and ends up seen, and the pushed paths
are pairwise distinct. -/
def InvP (seen : List S) (r : List S × List Event × List S) : Prop :=
  SeenLE seen r.2.2 ∧ (∀ x ∈ r.1, x ∉ seen ∧ x ∈ r.2.2) ∧ r.1.Nodup

/-- Invariant of one `resolveGo` run on `fp` starting from `seen`:
additionally no pushed path equals the scanned file, and a scannable `fp`
(existing and unseen) is marked seen by the run. -/
def InvR (cwd : S) (fs : FS) (fp : S) (seen : List S)
    (r : List S × List Event × List S) : Prop :=
  SeenLE seen r.2.2 ∧ (∀ x ∈ r.1, x ∉ seen ∧ x ≠ fp ∧ x ∈ r.2.2) ∧ r.1.Nodup ∧
  (existsV cwd fs fp = true → fp ∉ seen → fp ∈ r.2.2)

/-! ### Lemmas about the comment stripper and the import scanner -/

theorem takeWhile_sat_append (p : Char → Bool) (a b : S) (h : ∀ c ∈ a, p c = true) :
    (a ++ b).takeWhile p = a ++ b.takeWhile p := by
  induction a with
  | nil => simp
  | cons c a ih =>
    have hc : p c = true := h c (List.mem_cons_self c a)
    simp only [List.cons_append, List.takeWhile_cons, hc, if_true]
    rw [ih (fun x hx => h x (List.mem_cons_of_mem c hx))]

theorem dropWhile_sat_append (p : Char → Bool) (a b : S) (h : ∀ c ∈ a, p c = true) :
    (a ++ b).dropWhile p = b.dropWhile p := by
  induction a with
  | nil => simp
  | cons c a ih =>
    have hc : p c = true := h c (List.mem_cons_self c a)
    simp only [List.cons_append, List.dropWhile_cons, hc, if_true]
    exact ih (fun x hx => h x (List.mem_cons_of_mem c hx))

theorem findClose_cons_none {c : Char} {t : S} (h : findClose (c :: t) = none) :
    findClose t = none := by
  cases t with
  | nil => rfl
  | cons d t2 =>
    rw [findClose] at h
    by_cases hcd : c = '*' ∧ d = '/'
    · rw [if_pos hcd] at h; exact absurd h (by simp)
    · rwa [if_neg hcd] at h

theorem findClose_cons_not {c d : Char} {t : S} (h : findClose (c :: d :: t) = none) :
    ¬(c = '*' ∧ d = '/') := by
  intro hcd
  rw [findClose, if_pos hcd] at h
  exact absurd h (by simp)

theorem stripGo_none_cons {c : Char} (l : S) (hc : c ≠ '/') :
    stripGo none (c :: l) = c :: stripGo none l := by
  cases l with
  | nil => simp [stripGo]
  | cons d t =>
    rw [stripGo, if_neg (by intro hx; exact hc hx.1)]

theorem stripGo_clean (pre r : S) (h : ∀ c ∈ pre, c ≠ '/') :
    stripGo none (pre ++ r) = pre ++ stripGo none r := by
  induction pre with
  | nil => simp
  | cons c pre ih =>
    have hc : c ≠ '/' := h c (List.mem_cons_self c pre)
    rw [List.cons_append, stripGo_none_cons _ hc,
      ih (fun x hx => h x (List.mem_cons_of_mem c hx)), List.cons_append]

theorem stripGo_some_noclose (body : S) : ∀ buf : S, findClose body = none →
    stripGo (some buf) body = '/' :: '*' :: (buf.reverse ++ body) := by
  induction body with
  | nil => intro buf _; simp [stripGo]
  | cons c rest ih =>
    intro buf h
    cases rest with
    | nil => simp [stripGo]
    | cons d t =>
      have hcd : ¬(c = '*' ∧ d = '/') := findClose_cons_not h
      rw [stripGo, if_neg hcd, ih (c :: buf) (findClose_cons_none h)]
      simp

theorem stripGo_some_close (body : S) : ∀ (buf post : S), findClose body = none →
    stripGo (some buf) (body ++ ('*' :: '/' :: post)) = stripGo none post := by
  induction body with
  | nil =>
    intro buf post _
    show stripGo (some buf) ('*' :: '/' :: post) = stripGo none post
    rw [stripGo, if_pos ⟨rfl, rfl⟩]
  | cons c rest ih =>
    intro buf post h
    cases rest with
    | nil =>
      show stripGo (some buf) (c :: '*' :: '/' :: post) = stripGo none post
      rw [stripGo, if_neg (by intro hx; exact absurd hx.2 (by decide))]
      rw [stripGo, if_pos ⟨rfl, rfl⟩]
    | cons d t =>
      have hcd : ¬(c = '*' ∧ d = '/') := findClose_cons_not h
      show stripGo (some buf) (c :: d :: (t ++ ('*' :: '/' :: post))) = stripGo none post
      rw [stripGo, if_neg hcd]
      exact ih (c :: buf) post (findClose_cons_none h)

theorem stripComments_noclose (l : S) (h : findClose l = none) : stripComments l = l := by
  unfold stripComments
  induction l with
  | nil => rfl
  | cons c rest ih =>
    cases rest with
    | nil => simp [stripGo]
    | cons d t =>
      by_cases hcd : c = '/' ∧ d = '*'
      · rw [stripGo, if_pos hcd]
        have ht : findClose t = none := findClose_cons_none (findClose_cons_none h)
        rw [stripGo_some_noclose t [] ht]
        rw [hcd.1, hcd.2]
        simp
      · rw [stripGo, if_neg hcd, ih (findClose_cons_none h)]

theorem stripComments_removes_comment (pre body post : S)
    (hpre : ∀ c ∈ pre, c ≠ '/') (hbody : findClose body = none) :
    stripComments (pre ++ ('/' :: '*' :: (body ++ ('*' :: '/' :: post)))) =
      pre ++ stripComments post := by
  unfold stripComments
  rw [stripGo_clean pre _ hpre]
  congr 1
  rw [stripGo, if_pos ⟨rfl, rfl⟩]
  exact stripGo_some_close body [] post hbody

/-! ### Lemmas about path normalization -/

theorem mem_splitSlash : ∀ (l : S) (s : S), s ∈ splitSlash l → '/' ∉ s := by
  intro l
  induction l with
  | nil =>
    intro s hs
    simp only [splitSlash, List.mem_singleton] at hs
    simp [hs]
  | cons c t ih =>
    intro s hs
    by_cases hc : c = '/'
    · rw [splitSlash, if_pos hc] at hs
      rcases List.mem_cons.mp hs with h | h
      · simp [h]
      · exact ih s h
    · rw [splitSlash, if_neg hc] at hs
      cases h2 : splitSlash t with
      | nil =>
        rw [h2] at hs
        have hsc : s = [c] := by simpa using hs
        subst hsc
        exact fun hm => hc (List.mem_singleton.mp hm).symm
      | cons s0 ss =>
        rw [h2] at hs
        rcases List.mem_cons.mp hs with h | h
        · subst h
          intro hmem
          rcases List.mem_cons.mp hmem with h | h
          · exact hc h.symm
          · exact ih s0 (h2 ▸ List.mem_cons_self s0 ss) h
        · exact ih s (h2 ▸ List.mem_cons_of_mem s0 h)

theorem splitSlash_single (a : S) (h : '/' ∉ a) : splitSlash a = [a] := by
  induction a with
  | nil => rfl
  | cons c t ih =>
    have hc : c ≠ '/' := fun hx => h (hx ▸ List.mem_cons_self c t)
    rw [splitSlash, if_neg hc, ih (fun hx => h (List.mem_cons_of_mem c hx))]

theorem splitSlash_append_slash (a : S) (t : S) (h : '/' ∉ a) :
    splitSlash (a ++ '/' :: t) = a :: splitSlash t := by
  induction a with
  | nil => simp [splitSlash]
  | cons c a2 ih =>
    have hc : c ≠ '/' := fun hx => h (hx ▸ List.mem_cons_self c a2)
    rw [List.cons_append, splitSlash, if_neg hc,
      ih (fun hx => h (List.mem_cons_of_mem c hx))]

theorem splitSlash_joinSegs : ∀ segs : List S, segs ≠ [] → (∀ s ∈ segs, '/' ∉ s) →
    splitSlash (joinSegs segs) = segs := by
  intro segs
  induction segs with
  | nil => intro h; exact absurd rfl h
  | cons a rest ih =>
    intro _ hs
    cases rest with
    | nil =>
      show splitSlash a = [a]
      exact splitSlash_single a (hs a (List.mem_cons_self a []))
    | cons b r =>
      show splitSlash (a ++ '/' :: joinSegs (b :: r)) = a :: b :: r
      rw [splitSlash_append_slash a _ (hs a (List.mem_cons_self a (b :: r)))]
      rw [ih (by simp) (fun s hmem => hs s (List.mem_cons_of_mem a hmem))]

theorem normSegs_false_nice : ∀ (l acc : List S), (∀ s ∈ l, '/' ∉ s) →
    (∀ s ∈ acc, NiceSeg s) → ∀ s ∈ normSegs false acc l, NiceSeg s := by
  intro l
  induction l with
  | nil => intro acc _ hacc s hs; exact hacc s hs
  | cons a t ih =>
    intro acc hl hacc s hs
    have hl2 : ∀ s ∈ t, '/' ∉ s := fun x hx => hl x (List.mem_cons_of_mem a hx)
    rw [normSegs] at hs
    by_cases h1 : a = [] ∨ a = ['.']
    · rw [if_pos h1] at hs
      exact ih acc hl2 hacc s hs
    · rw [if_neg h1] at hs
      by_cases h2 : a = ['.', '.']
      · rw [if_pos h2] at hs
        by_cases h3 : acc ≠ [] ∧ acc.getLast? ≠ some ['.', '.']
        · rw [if_pos h3] at hs
          exact ih acc.dropLast hl2
            (fun x hx => hacc x ((List.dropLast_sublist acc).subset hx)) s hs
        · rw [if_neg h3, if_neg (by simp)] at hs
          exact ih acc hl2 hacc s hs
      · rw [if_neg h2] at hs
        refine ih (acc ++ [a]) hl2 ?_ s hs
        intro x hx
        rcases List.mem_append.mp hx with h | h
        · exact hacc x h
        · have hxa : x = a := List.mem_singleton.mp h
          subst hxa
          exact ⟨hl x (List.mem_cons_self x t),
            fun hc => h1 (Or.inl hc), fun hc => h1 (Or.inr hc), h2⟩

theorem normSegs_id (ab : Bool) : ∀ (l acc : List S), (∀ s ∈ l, NiceSeg s) →
    normSegs ab acc l = acc ++ l := by
  intro l
  induction l with
  | nil => intro acc _; simp [normSegs]
  | cons a t ih =>
    intro acc h
    have ha : NiceSeg a := h a (List.mem_cons_self a t)
    rw [normSegs, if_neg (by rintro (hx | hx); exacts [ha.2.1 hx, ha.2.2.1 hx]),
      if_neg ha.2.2.2, ih (acc ++ [a]) (fun x hx => h x (List.mem_cons_of_mem a hx))]
    simp

theorem normAbs_head (x : S) : (normAbs x).head? = some '/' := rfl

theorem normAbs_idem (x : S) : normAbs (normAbs x) = normAbs x := by
  have hnice : ∀ s ∈ normSegs false [] (splitSlash x), NiceSeg s :=
    normSegs_false_nice (splitSlash x) [] (mem_splitSlash x) (by simp)
  unfold normAbs
  cases hsegs : normSegs false [] (splitSlash x) with
  | nil => rfl
  | cons s0 rest =>
    show joinAbs (normSegs false [] (splitSlash ('/' :: joinSegs (s0 :: rest)))) = _
    rw [show splitSlash ('/' :: joinSegs (s0 :: rest)) =
        [] :: splitSlash (joinSegs (s0 :: rest)) by rw [splitSlash]; rfl]
    rw [splitSlash_joinSegs (s0 :: rest) (by simp)
      (fun s hsm => (hnice s (hsegs ▸ hsm)).1)]
    rw [show normSegs false [] ([] :: s0 :: rest) = normSegs false [] (s0 :: rest) by
      rw [normSegs, if_pos (Or.inl rfl)]]
    rw [normSegs_id false (s0 :: rest) [] (fun s hsm => hnice s (hsegs ▸ hsm))]
    rfl

theorem abspath_normAbs (cwd x : S) : abspath cwd (normAbs x) = normAbs x := by
  rw [abspath, if_pos (normAbs_head x), normAbs_idem]

theorem abspath_pathResolve (cwd dir spec : S) :
    abspath cwd (pathResolve cwd dir spec) = pathResolve cwd dir spec := by
  rw [pathResolve]
  split_ifs <;> exact abspath_normAbs cwd _

/-! ### Lemmas about the visited-set counter -/

theorem unvisitedK_mono {fs : FS} {s1 s2 : List S} (h : ∀ x ∈ s1, x ∈ s2) :
    unvisitedK fs s2 ≤ unvisitedK fs s1 := by
  apply Finset.card_le_card
  intro x hx
  rw [Finset.mem_filter] at hx ⊢
  exact ⟨hx.1, fun hmem => hx.2 (h x hmem)⟩

theorem unvisitedK_cons_le (fs : FS) (a : S) (seen : List S) :
    unvisitedK fs (a :: seen) ≤ unvisitedK fs seen :=
  unvisitedK_mono (fun _ hx => List.mem_cons_of_mem a hx)

theorem unvisitedK_cons_lt {fs : FS} {a : S} {seen : List S}
    (ha : a ∈ keysOf fs) (hnot : a ∉ seen) :
    unvisitedK fs (a :: seen) < unvisitedK fs seen := by
  apply Finset.card_lt_card
  rw [Finset.ssubset_iff_of_subset]
  · exact ⟨a, by
      rw [Finset.mem_filter]
      exact ⟨List.mem_toFinset.mpr ha, hnot⟩, by
      rw [Finset.mem_filter]
      rintro ⟨-, hc⟩
      exact hc (List.mem_cons_self a seen)⟩
  · intro x hx
    rw [Finset.mem_filter] at hx ⊢
    exact ⟨hx.1, fun hmem => hx.2 (List.mem_cons_of_mem a hmem)⟩

theorem unvisitedK_pos {fs : FS} {a : S} {seen : List S}
    (ha : a ∈ keysOf fs) (hnot : a ∉ seen) : 0 < unvisitedK fs seen := by
  apply Finset.card_pos.mpr
  exact ⟨a, by rw [Finset.mem_filter]; exact ⟨List.mem_toFinset.mpr ha, hnot⟩⟩

theorem unvisitedK_le_length (fs : FS) (seen : List S) :
    unvisitedK fs seen ≤ fs.length := by
  calc unvisitedK fs seen ≤ (keysOf fs).toFinset.card := Finset.card_filter_le _ _
    _ ≤ (keysOf fs).length := (keysOf fs).toFinset_card_le
    _ = fs.length := List.length_map fs Prod.fst

theorem existsV_key {cwd : S} {fs : FS} {p : S} (h : existsV cwd fs p = true) :
    abspath cwd p ∈ keysOf fs := by
  rw [existsV, List.any_eq_true] at h
  obtain ⟨e, he, heq⟩ := h
  rw [decide_eq_true_eq] at heq
  exact heq ▸ List.mem_map_of_mem Prod.fst he

/-! ### The `resolveImports` run invariant -/

theorem procInv (cwd : S) (fs : FS) (go : S → List S → List S × List Event × List S)
    (fuel : Nat)
    (Hgo : ∀ p s, abspath cwd p = p → unvisitedK fs s ≤ fuel → InvR cwd fs p s (go p s))
    (dir : S) :
    ∀ (specs : List S) (seen : List S), unvisitedK fs seen ≤ fuel →
      InvP seen (processSpecs go cwd fs dir specs seen) := by
  intro specs
  induction specs with
  | nil =>
    intro seen _
    exact ⟨fun x hx => hx, by simp [processSpecs], by simp [processSpecs]⟩
  | cons a rest ih =>
    intro seen hseen
    simp only [processSpecs]
    by_cases hext : extname a = []
    · rw [if_pos hext]
      obtain ⟨i1, i2, i3⟩ := ih seen hseen
      exact ⟨i1, i2, i3⟩
    · rw [if_neg hext]
      by_cases hex : existsV cwd fs (pathResolve cwd dir a) = false
      · rw [if_pos hex]
        obtain ⟨i1, i2, i3⟩ := ih seen hseen
        exact ⟨i1, i2, i3⟩
      · rw [if_neg hex]
        by_cases hmem : pathResolve cwd dir a ∈ seen
        · rw [if_pos hmem]
          exact ih seen hseen
        · rw [if_neg hmem]
          have hex' : existsV cwd fs (pathResolve cwd dir a) = true := by
            cases hb : existsV cwd fs (pathResolve cwd dir a)
            · exact absurd hb hex
            · rfl
          obtain ⟨r1mono, r1elems, r1nodup, r1add⟩ :=
            Hgo (pathResolve cwd dir a) seen (abspath_pathResolve cwd dir a) hseen
          have hrin : pathResolve cwd dir a ∈ (go (pathResolve cwd dir a) seen).2.2 :=
            r1add hex' hmem
          have hs1 : unvisitedK fs (go (pathResolve cwd dir a) seen).2.2 ≤ fuel :=
            le_trans (unvisitedK_mono r1mono) hseen
          obtain ⟨r2mono, r2elems, r2nodup⟩ :=
            ih (go (pathResolve cwd dir a) seen).2.2 hs1
          refine ⟨fun x hx => r2mono x (r1mono x hx), ?_, ?_⟩
          · intro x hx
            rcases List.mem_cons.mp hx with hx | hx
            · subst hx
              exact ⟨hmem, r2mono _ hrin⟩
            rcases List.mem_append.mp hx with hx | hx
            · exact ⟨(r1elems x hx).1, r2mono x (r1elems x hx).2.2⟩
            · exact ⟨fun hin => (r2elems x hx).1 (r1mono x hin), (r2elems x hx).2⟩
          · rw [List.nodup_cons]
            constructor
            · intro hin
              rcases List.mem_append.mp hin with hx | hx
              · exact (r1elems _ hx).2.1 rfl
              · exact (r2elems _ hx).1 hrin
            · rw [List.nodup_append]
              refine ⟨r1nodup, r2nodup, ?_⟩
              intro x hx hx2
              exact (r2elems x hx2).1 ((r1elems x hx).2.2)

theorem resolveGoInv (cwd : S) (fs : FS) :
    ∀ (fuel : Nat) (fp : S) (seen : List S),
      (unvisitedK fs seen < fuel ∨ (abspath cwd fp = fp ∧ unvisitedK fs seen ≤ fuel)) →
      InvR cwd fs fp seen (resolveGo cwd fs fuel fp seen) := by
  intro fuel
  induction fuel with
  | zero =>
    intro fp seen h
    refine ⟨fun x hx => hx, by simp [resolveGo], by simp [resolveGo], ?_⟩
    intro hex hnot
    rcases h with h | ⟨hfix, hle⟩
    · omega
    · have hk : abspath cwd fp ∈ keysOf fs := existsV_key hex
      rw [hfix] at hk
      have := unvisitedK_pos hk hnot
      omega
  | succ fuel ih =>
    intro fp seen h
    simp only [resolveGo]
    by_cases hguard : existsV cwd fs fp = false ∨ fp ∈ seen
    · rw [if_pos hguard]
      refine ⟨fun x hx => hx, by simp, by simp, ?_⟩
      intro hex hnot
      rcases hguard with hg | hg
      · rw [hex] at hg; exact absurd hg (by simp)
      · exact absurd hg hnot
    · rw [if_neg hguard]
      obtain ⟨hA, hB⟩ := not_or.mp hguard
      have hex : existsV cwd fs fp = true := by
        cases hb : existsV cwd fs fp
        · exact absurd hb hA
        · rfl
      have hseen1 : unvisitedK fs (fp :: seen) ≤ fuel := by
        rcases h with h | ⟨hfix, hle⟩
        · have := unvisitedK_cons_le fs fp seen
          omega
        · have hk : fp ∈ keysOf fs := by
            have := existsV_key hex
            rwa [hfix] at this
          have := unvisitedK_cons_lt hk hB
          omega
      obtain ⟨p1, p2, p3⟩ :=
        procInv cwd fs (fun p s => resolveGo cwd fs fuel p s) fuel
          (fun p s hp hs => ih p s (Or.inr ⟨hp, hs⟩)) (dirname fp)
          (scanImports (stripComments (readF cwd fs fp))) (fp :: seen) hseen1
      refine ⟨fun x hx => p1 x (List.mem_cons_of_mem fp hx), ?_, p3, ?_⟩
      · intro x hx
        obtain ⟨hnotin, hin⟩ := p2 x hx
        exact ⟨fun hc => hnotin (List.mem_cons_of_mem fp hc),
          fun hc => hnotin (hc ▸ List.mem_cons_self fp seen), hin⟩
      · intro _ _
        exact p1 fp (List.mem_cons_self fp seen)

/-! ### Fuel adequacy: the recursion has stabilized at the canonical fuel -/

theorem resolveGo_succ_eq (cwd : S) (fs : FS) :
    ∀ (fuel : Nat) (fp : S) (seen : List S),
      (unvisitedK fs seen < fuel ∨ (abspath cwd fp = fp ∧ unvisitedK fs seen ≤ fuel)) →
      resolveGo cwd fs (fuel + 1) fp seen = resolveGo cwd fs fuel fp seen := by
  intro fuel
  induction fuel with
  | zero =>
    intro fp seen h
    rcases h with h | ⟨hfix, hle⟩
    · omega
    show (if existsV cwd fs fp = false ∨ fp ∈ seen then ([], [], seen)
      else _) = ([], [], seen)
    by_cases hguard : existsV cwd fs fp = false ∨ fp ∈ seen
    · rw [if_pos hguard]
    · exfalso
      obtain ⟨hA, hB⟩ := not_or.mp hguard
      have hex : existsV cwd fs fp = true := by
        cases hb : existsV cwd fs fp
        · exact absurd hb hA
        · rfl
      have hk : fp ∈ keysOf fs := by
        have := existsV_key hex
        rwa [hfix] at this
      have := unvisitedK_pos hk hB
      omega
  | succ fuel ih =>
    intro fp seen h
    simp only [resolveGo]
    by_cases hguard : existsV cwd fs fp = false ∨ fp ∈ seen
    · rw [if_pos hguard, if_pos hguard]
    · rw [if_neg hguard, if_neg hguard]
      obtain ⟨hA, hB⟩ := not_or.mp hguard
      have hex : existsV cwd fs fp = true := by
        cases hb : existsV cwd fs fp
        · exact absurd hb hA
        · rfl
      have hseen1 : unvisitedK fs (fp :: seen) ≤ fuel := by
        rcases h with h | ⟨hfix, hle⟩
        · have := unvisitedK_cons_le fs fp seen
          omega
        · have hk : fp ∈ keysOf fs := by
            have := existsV_key hex
            rwa [hfix] at this
          have := unvisitedK_cons_lt hk hB
          omega
      have key : ∀ (specs : List S) (s : List S), unvisitedK fs s ≤ fuel →
          processSpecs (fun p s2 => resolveGo cwd fs (fuel + 1) p s2) cwd fs
            (dirname fp) specs s =
          processSpecs (fun p s2 => resolveGo cwd fs fuel p s2) cwd fs
            (dirname fp) specs s := by
        intro specs
        induction specs with
        | nil => intro s _; rfl
        | cons a rest ihs =>
          intro s hs
          simp only [processSpecs]
          split_ifs with h1 h2 h3
          · rw [ihs s hs]
          · rw [ihs s hs]
          · exact ihs s hs
          · have hgo : resolveGo cwd fs (fuel + 1) (pathResolve cwd (dirname fp) a) s =
                resolveGo cwd fs fuel (pathResolve cwd (dirname fp) a) s :=
              ih (pathResolve cwd (dirname fp) a) s
                (Or.inr ⟨abspath_pathResolve cwd (dirname fp) a, hs⟩)
            rw [hgo]
            have hmono :=
              (resolveGoInv cwd fs fuel (pathResolve cwd (dirname fp) a) s
                (Or.inr ⟨abspath_pathResolve cwd (dirname fp) a, hs⟩)).1
            have hs2 : unvisitedK fs
                (resolveGo cwd fs fuel (pathResolve cwd (dirname fp) a) s).2.2 ≤ fuel :=
              le_trans (unvisitedK_mono hmono) hs
            rw [ihs _ hs2]
      exact key (scanImports (stripComments (readF cwd fs fp))) (fp :: seen) hseen1

theorem resolveGo_stable (cwd : S) (fs : FS) (fp : S) :
    ∀ k : Nat, resolveGo cwd fs (importsFuel fs + k) fp [] =
      resolveGo cwd fs (importsFuel fs) fp [] := by
  intro k
  induction k with
  | zero => rfl
  | succ k ih =>
    have hlt : unvisitedK fs [] < importsFuel fs + k := by
      have := unvisitedK_le_length fs []
      simp only [importsFuel]
      omega
    calc resolveGo cwd fs (importsFuel fs + (k + 1)) fp []
        = resolveGo cwd fs ((importsFuel fs + k) + 1) fp [] := rfl
      _ = resolveGo cwd fs (importsFuel fs + k) fp [] :=
          resolveGo_succ_eq cwd fs (importsFuel fs + k) fp [] (Or.inl hlt)
      _ = resolveGo cwd fs (importsFuel fs) fp [] := ih

/-! ### Claims -/

/-- C1: resolveImports returns the pre-order flattening of the import DAG:
for every filesystem and entry path the result has no duplicate paths and
never contains the entry path itself; for a chain A→B→C of existing files
the result is exactly [B, C] in that order (parent before child), and for
siblings the textual order of the `@import` statements is kept (A importing
B then C, with B importing D, yields [B, D, C]). -/
theorem c1_preorder_flattening :
    (∀ (cwd : S) (fs : FS) (fp : S),
      (resolveImports cwd fs fp).1.Nodup ∧ fp ∉ (resolveImports cwd fs fp).1) ∧
    resolveImports ("/w".toList)
      [(("/p/a.css".toList), ("@import \"./b.css\";".toList)),
       (("/p/b.css".toList), ("@import \"./c.css\";".toList)),
       (("/p/c.css".toList), ("x".toList))]
      ("/p/a.css".toList) =
      ([("/p/b.css".toList), ("/p/c.css".toList)],
       [Event.watch ("/p/b.css".toList), Event.watch ("/p/c.css".toList)]) ∧
    resolveImports ("/w".toList)
      [(("/q/a.css".toList), ("@import \"./b.css\"; @import \"./c.css\";".toList)),
       (("/q/b.css".toList), ("@import \"./d.css\";".toList)),
       (("/q/c.css".toList), ("x".toList)),
       (("/q/d.css".toList), ("x".toList))]
      ("/q/a.css".toList) =
      ([("/q/b.css".toList), ("/q/d.css".toList), ("/q/c.css".toList)],
       [Event.watch ("/q/b.css".toList), Event.watch ("/q/d.css".toList),
        Event.watch ("/q/c.css".toList)]) := by
  refine ⟨?_, by decide, by decide⟩
  intro cwd fs fp
  have hlt : unvisitedK fs [] < importsFuel fs := by
    have := unvisitedK_le_length fs []
    simp only [importsFuel]
    omega
  have h := resolveGoInv cwd fs (importsFuel fs) fp [] (Or.inl hlt)
  constructor
  · exact h.2.2.1
  · intro hmem
    exact (h.2.1 fp hmem).2.1 rfl

/-- C2: resolveImports terminates on every finite filesystem even with a
cyclic import graph: the canonical fuel is already enough, so adding any
amount of extra fuel leaves the run unchanged; a file already in the shared
visited set is never scanned again (the call returns immediately, producing
no callback); and for a two-node cycle A→B→A, resolving A returns exactly
[B] once, with the only callback being the watch of B. -/
theorem c2_termination_on_cycles :
    (∀ (cwd : S) (fs : FS) (fp : S) (k : Nat),
      resolveGo cwd fs (importsFuel fs + k) fp [] =
        resolveGo cwd fs (importsFuel fs) fp []) ∧
    (∀ (cwd : S) (fs : FS) (fuel : Nat) (fp : S) (seen : List S), fp ∈ seen →
      resolveGo cwd fs fuel fp seen = ([], [], seen)) ∧
    resolveImports ("/w".toList)
      [(("/p/a.css".toList), ("@import \"./b.css\";".toList)),
       (("/p/b.css".toList), ("@import \"./a.css\";".toList))]
      ("/p/a.css".toList) =
      ([("/p/b.css".toList)], [Event.watch ("/p/b.css".toList)]) := by
  refine ⟨fun cwd fs fp k => resolveGo_stable cwd fs fp k, ?_, by decide⟩
  intro cwd fs fuel fp seen hmem
  cases fuel with
  | zero => rfl
  | succ fuel =>
    simp only [resolveGo]
    rw [if_pos (Or.inr hmem)]

/-- C2 witness: the visited-set guard on a concrete input. -/
theorem c2_termination_on_cycles_witness :
    resolveGo ("/w".toList) [] 5 ("/a".toList) [("/a".toList)] =
      ([], [], [("/a".toList)]) :=
  c2_termination_on_cycles.2.1 ("/w".toList) [] 5 ("/a".toList) [("/a".toList)]
    (List.mem_cons_self _ _)

/-- C3 counterexample: the specifier `./.hidden` has a `.` in its final path
segment and the file `/p/.hidden` exists on disk, yet the code classifies it
bare-module: the only callback is `onSkipBare("./.hidden")` and nothing is
resolved against the filesystem, so the result is empty. -/
theorem c3_dotfile_counterexample :
    existsV ("/w".toList)
      [(("/p/main.css".toList), ("@import \"./.hidden\";".toList)),
       (("/p/.hidden".toList), ("x".toList))]
      ("/p/.hidden".toList) = true ∧
    resolveImports ("/w".toList)
      [(("/p/main.css".toList), ("@import \"./.hidden\";".toList)),
       (("/p/.hidden".toList), ("x".toList))]
      ("/p/main.css".toList) =
      ([], [Event.skipBare ("./.hidden".toList)]) := by
  exact ⟨by decide, by decide⟩

/-- C3 (amended): every scanned specifier is classified by the emptiness of
Node's `extname`: when `extname` is empty the specifier is bare-module —
`onSkipBare` fires exactly once with the exact specifier, nothing is added
to the result, the seen set is unchanged and no recursion happens — and when
`extname` is nonempty the specifier is local and is resolved against the
filesystem at `pathResolve cwd dir spec` (reported missing, skipped as
already seen, or watched and recursed into).  `extname` is empty not only
when the final segment has no `.`, but also for dotfiles whose only `.`
leads (`./.hidden`) and for `..`; a name ending in a bare `.` is local. -/
theorem c3_extension_classification :
    (∀ (go : S → List S → List S × List Event × List S) (cwd : S) (fs : FS)
      (dir spec : S) (rest seen : List S), extname spec = [] →
      processSpecs go cwd fs dir (spec :: rest) seen =
        ((processSpecs go cwd fs dir rest seen).1,
         Event.skipBare spec :: (processSpecs go cwd fs dir rest seen).2.1,
         (processSpecs go cwd fs dir rest seen).2.2)) ∧
    (∀ (go : S → List S → List S × List Event × List S) (cwd : S) (fs : FS)
      (dir spec : S) (rest seen : List S), extname spec ≠ [] →
      existsV cwd fs (pathResolve cwd dir spec) = false →
      processSpecs go cwd fs dir (spec :: rest) seen =
        ((processSpecs go cwd fs dir rest seen).1,
         Event.skipNotFound (pathResolve cwd dir spec) ::
           (processSpecs go cwd fs dir rest seen).2.1,
         (processSpecs go cwd fs dir rest seen).2.2)) ∧
    (∀ (go : S → List S → List S × List Event × List S) (cwd : S) (fs : FS)
      (dir spec : S) (rest seen : List S), extname spec ≠ [] →
      existsV cwd fs (pathResolve cwd dir spec) = true →
      pathResolve cwd dir spec ∈ seen →
      processSpecs go cwd fs dir (spec :: rest) seen =
        processSpecs go cwd fs dir rest seen) ∧
    (∀ (go : S → List S → List S × List Event × List S) (cwd : S) (fs : FS)
      (dir spec : S) (rest seen : List S), extname spec ≠ [] →
      existsV cwd fs (pathResolve cwd dir spec) = true →
      pathResolve cwd dir spec ∉ seen →
      processSpecs go cwd fs dir (spec :: rest) seen =
        (pathResolve cwd dir spec ::
          ((go (pathResolve cwd dir spec) seen).1 ++
           (processSpecs go cwd fs dir rest
             (go (pathResolve cwd dir spec) seen).2.2).1),
         Event.watch (pathResolve cwd dir spec) ::
          ((go (pathResolve cwd dir spec) seen).2.1 ++
           (processSpecs go cwd fs dir rest
             (go (pathResolve cwd dir spec) seen).2.2).2.1),
         (processSpecs go cwd fs dir rest
           (go (pathResolve cwd dir spec) seen).2.2).2.2)) ∧
    extname ("./.hidden".toList) = [] ∧ extname ("..".toList) = [] ∧
    extname ("tailwindcss".toList) = [] ∧
    extname ("open-props/normalize".toList) = [] ∧
    extname ("./x.".toList) = ['.'] ∧ extname ("./x.css".toList) = (".css".toList) := by
  refine ⟨?_, ?_, ?_, ?_, by decide, by decide, by decide, by decide, by decide, by decide⟩
  · intro go cwd fs dir spec rest seen h
    simp only [processSpecs]
    rw [if_pos h]
  · intro go cwd fs dir spec rest seen h h2
    simp only [processSpecs]
    rw [if_neg h, if_pos h2]
  · intro go cwd fs dir spec rest seen h h2 h3
    simp only [processSpecs]
    rw [if_neg h, if_neg (by rw [h2]; simp), if_pos h3]
  · intro go cwd fs dir spec rest seen h h2 h3
    simp only [processSpecs]
    rw [if_neg h, if_neg (by rw [h2]; simp), if_neg h3]

/-- C3 witness: the bare-module equation applied to a concrete run. -/
theorem c3_extension_classification_witness :
    processSpecs (fun _ s => ([], [], s)) ("/w".toList) [] ("/p".toList)
      [("tailwindcss".toList)] [] =
      ([], [Event.skipBare ("tailwindcss".toList)], []) := by
  rw [c3_extension_classification.1 (fun _ s => ([], [], s)) ("/w".toList) []
    ("/p".toList) ("tailwindcss".toList) [] [] (by decide)]
  rfl

/-- C4: every scanned file is processed with `dir` equal to the directory of
that file itself (`dirname fp`), at any recursion depth, and local
specifiers are resolved by `pathResolve cwd dir spec`; concretely, with
entry `/p/main.css` importing `./sub/a.css` which imports `./b.css`, the
nested import resolves to `/p/sub/b.css` even though `/p/b.css` (entry
directory) and `/w/b.css` (working directory) also exist. -/
theorem c4_resolve_relative_to_containing_file :
    (∀ (cwd : S) (fs : FS) (fuel : Nat) (fp : S) (seen : List S),
      existsV cwd fs fp = true → fp ∉ seen →
      resolveGo cwd fs (fuel + 1) fp seen =
        processSpecs (fun p s => resolveGo cwd fs fuel p s) cwd fs (dirname fp)
          (scanImports (stripComments (readF cwd fs fp))) (fp :: seen)) ∧
    resolveImports ("/w".toList)
      [(("/p/main.css".toList), ("@import \"./sub/a.css\";".toList)),
       (("/p/sub/a.css".toList), ("@import \"./b.css\";".toList)),
       (("/p/sub/b.css".toList), ("y".toList)),
       (("/p/b.css".toList), ("z".toList)),
       (("/w/b.css".toList), ("w".toList))]
      ("/p/main.css".toList) =
      ([("/p/sub/a.css".toList), ("/p/sub/b.css".toList)],
       [Event.watch ("/p/sub/a.css".toList), Event.watch ("/p/sub/b.css".toList)]) := by
  refine ⟨?_, by decide⟩
  intro cwd fs fuel fp seen hex hmem
  simp only [resolveGo]
  rw [if_neg]
  rintro (hg | hg)
  · rw [hex] at hg
    exact absurd hg (by simp)
  · exact hmem hg

/-- C4 witness: the unfolding equation applied to a concrete scan. -/
theorem c4_resolve_relative_to_containing_file_witness :
    resolveGo ("/w".toList) [(("/p/m.css".toList), ("x".toList))] 2
      ("/p/m.css".toList) [] =
      processSpecs
        (fun p s => resolveGo ("/w".toList) [(("/p/m.css".toList), ("x".toList))] 1 p s)
        ("/w".toList) [(("/p/m.css".toList), ("x".toList))]
        (dirname ("/p/m.css".toList))
        (scanImports (stripComments
          (readF ("/w".toList) [(("/p/m.css".toList), ("x".toList))] ("/p/m.css".toList))))
        [("/p/m.css".toList)] :=
  c4_resolve_relative_to_containing_file.1 ("/w".toList)
    [(("/p/m.css".toList), ("x".toList))] 1 ("/p/m.css".toList) []
    (by decide) (by simp)

/-- C5: resolveImports never raises: a nonexistent entry path yields an
empty result and no callbacks; a local specifier whose resolved path does
not exist is excluded from the result, `onSkipNotFound` fires exactly once
with the resolved absolute path, and the remaining sibling imports of the
same file are still processed — concretely, with `./gone.css` missing and a
later sibling `./ok.css` present, the result is `[/p/ok.css]` with events
`[skipNotFound /p/gone.css, watch /p/ok.css]`. -/
theorem c5_missing_files_are_not_errors :
    (∀ (cwd : S) (fs : FS) (fp : S), existsV cwd fs fp = false →
      resolveImports cwd fs fp = ([], [])) ∧
    (∀ (go : S → List S → List S × List Event × List S) (cwd : S) (fs : FS)
      (dir spec : S) (rest seen : List S), extname spec ≠ [] →
      existsV cwd fs (pathResolve cwd dir spec) = false →
      (processSpecs go cwd fs dir (spec :: rest) seen).1 =
        (processSpecs go cwd fs dir rest seen).1 ∧
      (processSpecs go cwd fs dir (spec :: rest) seen).2.1 =
        Event.skipNotFound (pathResolve cwd dir spec) ::
          (processSpecs go cwd fs dir rest seen).2.1) ∧
    resolveImports ("/w".toList)
      [(("/p/main.css".toList),
        ("@import \"./gone.css\"; @import \"./ok.css\";".toList)),
       (("/p/ok.css".toList), ("k".toList))]
      ("/p/main.css".toList) =
      ([("/p/ok.css".toList)],
       [Event.skipNotFound ("/p/gone.css".toList),
        Event.watch ("/p/ok.css".toList)]) := by
  refine ⟨?_, ?_, by decide⟩
  · intro cwd fs fp h
    simp only [resolveImports, importsFuel, resolveGo]
    rw [if_pos (Or.inl h)]
  · intro go cwd fs dir spec rest seen h h2
    simp only [processSpecs]
    rw [if_neg h, if_pos h2]
    exact ⟨rfl, rfl⟩

/-- C5 witness: a nonexistent entry path on a concrete filesystem. -/
theorem c5_missing_files_are_not_errors_witness :
    resolveImports ("/w".toList) [] ("/missing.css".toList) = ([], []) :=
  c5_missing_files_are_not_errors.1 ("/w".toList) [] ("/missing.css".toList)
    (by decide)

/-- C6: block comments are removed before the import scan with shortest-span
matching: any comment `/* body */` whose body contains no `*/` is deleted
(so an `@import` inside it is never matched and produces no callback and no
result entry), and the scan continues with the text around it; concretely, a
commented-out import of an existing file `./a.css` produces nothing while a
genuine import of `./b.css` sitting between two separate comments in the
same file is still matched. -/
theorem c6_comments_never_match :
    (∀ pre body post : S, (∀ c ∈ pre, c ≠ '/') → findClose body = none →
      scanImports (stripComments
        (pre ++ ('/' :: '*' :: (body ++ ('*' :: '/' :: post))))) =
        scanImports (pre ++ stripComments post)) ∧
    resolveImports ("/w".toList)
      [(("/p/m.css".toList),
        ("/* @import \"./a.css\"; */ @import \"./b.css\"; /* t */".toList)),
       (("/p/a.css".toList), ("a".toList)),
       (("/p/b.css".toList), ("b".toList))]
      ("/p/m.css".toList) =
      ([("/p/b.css".toList)], [Event.watch ("/p/b.css".toList)]) ∧
    resolveImports ("/w".toList)
      [(("/p/m.css".toList),
        ("/* l1\n@import \"./a.css\";\nl3 */ x".toList)),
       (("/p/a.css".toList), ("a".toList))]
      ("/p/m.css".toList) = ([], []) := by
  refine ⟨?_, by decide, by decide⟩
  intro pre body post hpre hbody
  rw [stripComments_removes_comment pre body post hpre hbody]

/-- C6 witness: the comment-removal equation on a concrete text containing a
commented-out import. -/
theorem c6_comments_never_match_witness :
    scanImports (stripComments
      (("x ".toList) ++ ('/' :: '*' ::
        ((" @import \"./a.css\"; ".toList) ++ ('*' :: '/' :: (" z".toList)))))) =
      scanImports (("x ".toList) ++ stripComments (" z".toList)) :=
  c6_comments_never_match.1 ("x ".toList) (" @import \"./a.css\"; ".toList)
    (" z".toList) (by decide) (by decide)

/-- C7 counterexample: the entry text `/* note @import "./b.css";` has an
unterminated `/*` with no `*/` anywhere after it, yet the `@import` after
the `/*` is matched: the run returns `[/p/b.css]` and fires the watch
callback, while the claim demands no result entries and no callbacks. -/
theorem c7_unterminated_comment_counterexample :
    resolveImports ("/w".toList)
      [(("/p/m.css".toList), ("/* note @import \"./b.css\";".toList)),
       (("/p/b.css".toList), ("b".toList))]
      ("/p/m.css".toList) =
      ([("/p/b.css".toList)], [Event.watch ("/p/b.css".toList)]) ∧
    (resolveImports ("/w".toList)
      [(("/p/m.css".toList), ("/* note @import \"./b.css\";".toList)),
       (("/p/b.css".toList), ("b".toList))]
      ("/p/m.css".toList)).1 ≠ [] := by
  exact ⟨by decide, by decide⟩

/-- C7 (amended): an unterminated `/*` is not matched by the comment-strip
regex at all, so nothing after it is consumed: a text with no `*/` is left
entirely unchanged by stripComments, and `@import` statements appearing
after an unterminated `/*` are scanned exactly as if the `/*` were ordinary
text — concretely the import after `/* note ` is still captured. -/
theorem c7_unterminated_comment_not_stripped :
    (∀ l : S, findClose l = none → stripComments l = l) ∧
    (∀ pre body : S, (∀ c ∈ pre, c ≠ '/') → findClose body = none →
      stripComments (pre ++ ('/' :: '*' :: body)) = pre ++ ('/' :: '*' :: body)) ∧
    scanImports (stripComments ("/* note @import \"./b.css\";".toList)) =
      [("./b.css".toList)] := by
  refine ⟨stripComments_noclose, ?_, by decide⟩
  intro pre body hpre hbody
  unfold stripComments
  rw [stripGo_clean pre _ hpre]
  congr 1
  rw [stripGo, if_pos ⟨rfl, rfl⟩, stripGo_some_noclose body [] hbody]
  simp

/-- C7 witness: stripComments is the identity on a concrete text with no
comment close. -/
theorem c7_unterminated_comment_not_stripped_witness :
    stripComments ("/* ab".toList) = ("/* ab".toList) :=
  c7_unterminated_comment_not_stripped.1 ("/* ab".toList) (by decide)

/-- C8: an `@import url(...)` occurrence is never matched by the import
regex (the negative lookahead, and the quote requirement behind it, reject
`url(` after the whitespace), for any whitespace run and any parenthesis
contents: matching fails at such a position, and concrete runs over files
holding only `@import url("...")` or `@import url('...')` return no result
entries and no callbacks of any kind. -/
theorem c8_url_imports_never_match :
    (∀ ws rest : S, ws ≠ [] → (∀ c ∈ ws, isWS c = true) →
      matchImportAt (("@import".toList) ++ (ws ++ (("url(".toList) ++ rest))) = none) ∧
    resolveImports ("/w".toList)
      [(("/p/m.css".toList),
        ("@import url(\"https://fonts.example.com/f.css\");".toList))]
      ("/p/m.css".toList) = ([], []) ∧
    resolveImports ("/w".toList)
      [(("/p/m.css".toList),
        ("@import url('https://fonts.example.com/f.css');".toList))]
      ("/p/m.css".toList) = ([], []) := by
  refine ⟨?_, by decide, by decide⟩
  intro ws rest hne hws
  cases ws with
  | nil => exact absurd rfl hne
  | cons w ws2 =>
    have h1 : ((w :: ws2) ++ ('u' :: 'r' :: 'l' :: '(' :: rest)).takeWhile isWS =
        w :: ws2 := by
      rw [takeWhile_sat_append isWS _ _ hws, List.takeWhile_cons,
        show isWS 'u' = false from rfl]
      simp
    have h2 : ((w :: ws2) ++ ('u' :: 'r' :: 'l' :: '(' :: rest)).dropWhile isWS =
        'u' :: 'r' :: 'l' :: '(' :: rest := by
      rw [dropWhile_sat_append isWS _ _ hws, List.dropWhile_cons,
        show isWS 'u' = false from rfl]
      simp
    show matchImportAt ('@' :: 'i' :: 'm' :: 'p' :: 'o' :: 'r' :: 't' ::
      ((w :: ws2) ++ ('u' :: 'r' :: 'l' :: '(' :: rest))) = none
    simp only [matchImportAt, h1, h2]

/-- C8 witness: the lookahead rejection at a concrete position. -/
theorem c8_url_imports_never_match_witness :
    matchImportAt (("@import".toList) ++
      ([' '] ++ (("url(".toList) ++ ("'x');".toList)))) = none :=
  c8_url_imports_never_match.1 [' '] ("'x');".toList) (by simp) (by decide)

/-- C9: the resolved configuration is the caller-supplied fields merged over
the defaults with the caller winning on every key present in both (absent
fields take the default), and the defaults are output `styles.css`, minify
off, watch-output on, watch-imports on, domDiff on, debug off, and
source-map off. -/
theorem c9_option_defaults_and_merge :
    (∀ o : UserOptions, mergeOptions o =
      { input := o.input
        output := o.output.getD ("styles.css".toList)
        minify := o.minify.getD false
        watchOutput := o.watchOutput.getD true
        debug := o.debug.getD false
        domDiff := o.domDiff.getD true
        watchImports := o.watchImports.getD true
        sourceMap := o.sourceMap.getD SourceMapSetting.off }) ∧
    defaultOptions.output = ("styles.css".toList) ∧
    defaultOptions.minify = false ∧
    defaultOptions.watchOutput = true ∧
    defaultOptions.watchImports = true ∧
    defaultOptions.domDiff = true ∧
    defaultOptions.debug = false ∧
    defaultOptions.sourceMap = SourceMapSetting.off :=
  ⟨fun _ => rfl, rfl, rfl, rfl, rfl, rfl, rfl, rfl⟩

/-- C10: when the caller supplies no `input` option, registration still
calls `addWatchTarget` exactly once — for the entry, with the `null`
computed source path — and the registered build callback is an early return
on every cycle, so no output path is ever written. -/
theorem c10_no_input_registration :
    ∀ (cwd dirInput dirsOutput : S) (fs : FS) (o : UserOptions),
      o.input = none →
      (registerPlugin cwd dirInput dirsOutput fs o).watchTargets = [none] ∧
      (registerPlugin cwd dirInput dirsOutput fs o).buildOutput = none := by
  intro cwd dirInput dirsOutput fs o h
  have hmerged : (mergeOptions o).input = none := h
  simp [registerPlugin, tailwindSourceFile, hmerged]

/-- C10 witness: a registration with no input option on a concrete host
configuration. -/
theorem c10_no_input_registration_witness :
    (registerPlugin ("/w".toList) ("src".toList) ("dist".toList) []
      { }).watchTargets = [none] ∧
    (registerPlugin ("/w".toList) ("src".toList) ("dist".toList) []
      { }).buildOutput = none :=
  c10_no_input_registration ("/w".toList) ("src".toList) ("dist".toList) [] { } rfl

end Tailwind
